import Mathlib

/-!
# posrare: entropy scoring, frequency aggregation and ranking

A shallow embedding of `src/posrare.go`.

Modelling conventions.

* A Go `string` is a finite sequence of bytes, `GoString := List Nat`; every byte of a real
  string is below 256.  `len(word)` is the number of bytes.
* `for _, c := range word` decodes UTF-8 the way the Go runtime does (`decoderune`): an invalid
  or truncated sequence yields U+FFFD and consumes one byte.
* A Go `map[K]V` is a finite map without any order, `Finmap`.  Reading a missing key gives the
  zero value.  `for k := range m` visits every key once in an unspecified order, so the order
  of a `range` loop is a parameter (`RangeOrder`).
* `float64` is idealised as a linearly ordered field `F` with a base-2 logarithm
  `log2 : F → F` (rounding, infinities and NaN are not modelled).  Theorems that need facts
  about the logarithm take `F := ℝ` and `log2 := Real.logb 2`.
* Where rounding and the order of `range m` over the rune map matter (the cache),
  `calculateEntropyIn` is the same function with the `float64` operations kept abstract
  (`FloatOps`: any rounding, any `math.Log2`) and with the visiting order as an argument;
  `binary64` is IEEE 754 double arithmetic (round to nearest, ties to even) on finite numbers.
  `calculateEntropyIn_exact` shows that `calculateEntropy` is `calculateEntropyIn` with exact
  operations.
* `int` is modelled by `Int` without wrap-around: a counter of the frequency table would need
  `2 ^ 63` increments to overflow.
* A run-time panic is the result `none`.
* The worker goroutines update the two tables inside one critical section, so the tables after
  the barrier are the result of folding the update over the jobs in the order in which the
  critical sections were entered.
* `url.Parse` (standard library) is a parameter `parse`.
-/

namespace Posrare

/-! ## Strings and runes -/

/-- Go string: a sequence of bytes. -/
abbrev GoString := List Nat

/-- Go rune: a Unicode code point. -/
abbrev Rune := Nat

/-- Go map: a finite map with no iteration order. -/
abbrev GoMap (K V : Type) := Finmap (fun _ : K => V)

/-- The replacement code point U+FFFD produced for invalid UTF-8. -/
def runeError : Rune := 0xFFFD

/-- Continuation byte test `locb <= b && b <= hicb` of the Go runtime. -/
def isCont (b : Nat) : Bool := 0x80 ≤ b && b ≤ 0xBF

/-- One step of `range` over a string: the code point at the start of `s` and the number of
bytes it occupies (Go runtime `decoderune`, with the one-byte fast path of the loop). -/
def decoderune (s : GoString) : Rune × Nat :=
  match s with
  | [] => (runeError, 1)
  | s0 :: t =>
    if s0 < 0x80 then (s0, 1)
    else if 0xC0 ≤ s0 ∧ s0 < 0xE0 then
      match t with
      | s1 :: _ =>
        let r := ((s0 &&& 0x1F) <<< 6) ||| (s1 &&& 0x3F)
        if isCont s1 ∧ 0x7F < r then (r, 2) else (runeError, 1)
      | _ => (runeError, 1)
    else if 0xE0 ≤ s0 ∧ s0 < 0xF0 then
      match t with
      | s1 :: s2 :: _ =>
        let r := ((s0 &&& 0x0F) <<< 12) ||| ((s1 &&& 0x3F) <<< 6) ||| (s2 &&& 0x3F)
        if isCont s1 ∧ isCont s2 ∧ 0x7FF < r ∧ ¬ (0xD800 ≤ r ∧ r ≤ 0xDFFF) then (r, 3)
        else (runeError, 1)
      | _ => (runeError, 1)
    else if 0xF0 ≤ s0 ∧ s0 < 0xF8 then
      match t with
      | s1 :: s2 :: s3 :: _ =>
        let r := ((s0 &&& 0x07) <<< 18) ||| ((s1 &&& 0x3F) <<< 12) ||| ((s2 &&& 0x3F) <<< 6)
          ||| (s3 &&& 0x3F)
        if isCont s1 ∧ isCont s2 ∧ isCont s3 ∧ 0xFFFF < r ∧ r ≤ 0x10FFFF then (r, 4)
        else (runeError, 1)
      | _ => (runeError, 1)
    else (runeError, 1)

/-- The code points visited by `range` over the bytes, where the first `skip` bytes belong to
the code point decoded before. -/
def runesFrom : Nat → GoString → List Rune
  | _, [] => []
  | skip + 1, _ :: rest => runesFrom skip rest
  | 0, b :: rest =>
    (decoderune (b :: rest)).1 :: runesFrom ((decoderune (b :: rest)).2 - 1) rest

/-- The sequence of code points `for _, c := range word` visits. -/
def runes (word : GoString) : List Rune := runesFrom 0 word

/-- Go string comparison `a < b`: byte-wise lexicographic, a proper prefix is smaller. -/
def strLess : GoString → GoString → Bool
  | [], [] => false
  | [], _ :: _ => true
  | _ :: _, [] => false
  | a :: as, b :: bs => if a < b then true else if b < a then false else strLess as bs

/-- Go `strings.Split(s, sep)` for a one-byte separator: the pieces between the separators,
always at least one piece. -/
def stringsSplit (s : GoString) (sep : Nat) : List GoString :=
  match s with
  | [] => [[]]
  | c :: rest =>
    if c = sep then [] :: stringsSplit rest sep
    else
      match stringsSplit rest sep with
      | [] => [[c]]
      | piece :: pieces => (c :: piece) :: pieces

/-! ## calculateEntropy -/

/-- The loop `for _, c := range word { m[c]++ }` of `calculateEntropy`. -/
def runeCounts {F : Type} [LinearOrderedField F] (rs : List Rune) : GoMap Rune F :=
  rs.foldl (fun m c => m.insert c ((m.lookup c).getD 0 + 1)) ∅

/-- The loop `for _, freq := range m { freq /= float64(len(word)); entropy += freq *
math.Log2(freq) }` of `calculateEntropy`, started at `entropy := 0.0`; `len` is `len(word)`. -/
def entropySum {F : Type} [LinearOrderedField F] (log2 : F → F) (m : GoMap Rune F) (len : Nat) :
    F :=
  (m.entries.map (fun e => (e.2 / (len : F)) * log2 (e.2 / (len : F)))).sum

/-- The function `calculateEntropy`: the returned score and the cache after the call. -/
def calculateEntropy {F : Type} [LinearOrderedField F] (log2 : F → F)
    (entropyCache : GoMap GoString F) (word : GoString) : F × GoMap GoString F :=
  match entropyCache.lookup word with
  | some entropy => (entropy, entropyCache)
  | none =>
    let m : GoMap Rune F := runeCounts (runes word)
    let entropy := entropySum log2 m word.length
    (-entropy, entropyCache.insert word (-entropy))

/-- The cache after calling `calculateEntropy` on each of `words` in turn, starting from the
empty cache. -/
def cacheAfter {F : Type} [LinearOrderedField F] (log2 : F → F) (words : List GoString) :
    GoMap GoString F :=
  words.foldl (fun cache w => (calculateEntropy log2 cache w).2) ∅

/-- Every entry of the cache holds the score an empty cache gives for its key. -/
def CacheSound {F : Type} [LinearOrderedField F] (log2 : F → F) (cache : GoMap GoString F) :
    Prop :=
  ∀ w v, cache.lookup w = some v → v = (calculateEntropy log2 ∅ w).1

/-- Shannon entropy as the specification words it: over the distinct code points `c` of the
token, with `p_c` the number of occurrences of `c` divided by the number of code points. -/
def shannonEntropy {F : Type} [LinearOrderedField F] (log2 : F → F) (word : GoString) : F :=
  - ∑ c in (runes word).toFinset,
      (((runes word).count c : F) / ((runes word).length : F)) *
        log2 (((runes word).count c : F) / ((runes word).length : F))

/-- The token is one code point repeated one or more times. -/
def SingleRepeatedRune (word : GoString) : Prop :=
  ∃ c n, 0 < n ∧ runes word = List.replicate n c

/-! ## calculateEntropy with the float64 operations and the range order explicit -/

/-- The `float64` operations `calculateEntropy` uses: the constants `0.0` and `1.0`, the
conversion `float64(n)`, `+`, unary `-`, `*`, `/` and `math.Log2`. -/
structure FloatOps (F : Type) where
  zero : F
  one : F
  ofNat : Nat → F
  add : F → F → F
  neg : F → F
  mul : F → F → F
  div : F → F → F
  log2 : F → F

/-- The operations of exact arithmetic in an ordered field. -/
def exactOps {F : Type} [LinearOrderedField F] (log2 : F → F) : FloatOps F where
  zero := 0
  one := 1
  ofNat := fun n => (n : F)
  add := fun x y => x + y
  neg := fun x => -x
  mul := fun x y => x * y
  div := fun x y => x / y
  log2 := log2

/-- The loop `for _, c := range word { m[c]++ }` with the operations `ops`. -/
def runeCountsIn {F : Type} (ops : FloatOps F) (rs : List Rune) : GoMap Rune F :=
  rs.foldl (fun m c => m.insert c (ops.add ((m.lookup c).getD ops.zero) ops.one)) ∅

/-- The list `order` is an order in which `range` can visit the keys of the rune map. -/
def RuneOrder {F : Type} (m : GoMap Rune F) (order : List Rune) : Prop :=
  order.Nodup ∧ order.toFinset = m.keys

/-- Whether a list is a possible `range` order of a rune map can be computed. -/
instance runeOrderDecidable {F : Type} (m : GoMap Rune F) (order : List Rune) :
    Decidable (RuneOrder m order) :=
  inferInstanceAs (Decidable (order.Nodup ∧ order.toFinset = m.keys))

/-- The loop `for _, freq := range m { freq /= float64(len(word)); entropy += freq *
math.Log2(freq) }`, started at `entropy := 0.0`, where `range m` visits the keys in the order
`order`. -/
def entropySumIn {F : Type} (ops : FloatOps F) (m : GoMap Rune F) (len : Nat)
    (order : List Rune) : F :=
  order.foldl
    (fun entropy c =>
      ops.add entropy
        (ops.mul (ops.div ((m.lookup c).getD ops.zero) (ops.ofNat len))
          (ops.log2 (ops.div ((m.lookup c).getD ops.zero) (ops.ofNat len)))))
    ops.zero

/-- The function `calculateEntropy` with the operations `ops`, where `range m` visits the rune
map in the order `order`: the returned score and the cache after the call. -/
def calculateEntropyIn {F : Type} (ops : FloatOps F) (order : List Rune)
    (entropyCache : GoMap GoString F) (word : GoString) : F × GoMap GoString F :=
  match entropyCache.lookup word with
  | some entropy => (entropy, entropyCache)
  | none =>
    let m : GoMap Rune F := runeCountsIn ops (runes word)
    let entropy := entropySumIn ops m word.length order
    (ops.neg entropy, entropyCache.insert word (ops.neg entropy))

/-- The cache after a sequence of calls, each given by its token and the order in which its
`range m` visits the rune map, starting from the empty cache. -/
def cacheAfterIn {F : Type} (ops : FloatOps F) (calls : List (GoString × List Rune)) :
    GoMap GoString F :=
  calls.foldl (fun cache call => (calculateEntropyIn ops call.2 cache call.1).2) ∅

/-! ## IEEE 754 binary64 arithmetic on finite numbers -/

/-- A finite binary64 number, `mant * 2 ^ exp`; a number other than 0 has
`2 ^ 52 ≤ |mant| < 2 ^ 53`.  Subnormal numbers, infinities, NaN and the sign of zero are not
represented. -/
structure F64 where
  mant : Int
  exp : Int
deriving DecidableEq

/-- The number of binary digits of `n`, with `fuel` steps. -/
def bitLenAux : Nat → Nat → Nat
  | 0, _ => 0
  | fuel + 1, n => if n = 0 then 0 else bitLenAux fuel (n / 2) + 1

/-- The number of binary digits of `n`. -/
def bitLen (n : Nat) : Nat := bitLenAux n n

/-- The binary64 number nearest to the rational `num / den`, ties to even (overflow and
underflow are not handled). -/
def roundRat (num : Int) (den : Nat) : F64 :=
  if num = 0 ∨ den = 0 then ⟨0, 0⟩
  else
    let a := num.natAbs
    let e : Int := (bitLen a : Int) - (bitLen den : Int) - 55
    let n := if e < 0 then a * 2 ^ e.natAbs else a
    let d := if e < 0 then den else den * 2 ^ e.toNat
    let q := n / d
    let sticky := decide (n % d ≠ 0)
    let s := bitLen q - 53
    let m := q / 2 ^ s
    let r := q % 2 ^ s
    let half := 2 ^ (s - 1)
    let up := decide (r > half) || (decide (r = half) && (sticky || decide (m % 2 = 1)))
    let m1 := if up then m + 1 else m
    let m2 := if m1 = 2 ^ 53 then 2 ^ 52 else m1
    let e2 := if m1 = 2 ^ 53 then e + s + 1 else e + s
    ⟨if num < 0 then -(m2 : Int) else (m2 : Int), e2⟩

/-- Numerator of the value of a binary64 number over `F64.den`. -/
def F64.num (x : F64) : Int := if x.exp < 0 then x.mant else x.mant * 2 ^ x.exp.toNat

/-- Denominator of the value of a binary64 number. -/
def F64.den (x : F64) : Nat := if x.exp < 0 then 2 ^ x.exp.natAbs else 1

/-- Correctly rounded sum. -/
def F64.add (x y : F64) : F64 := roundRat (x.num * y.den + y.num * x.den) (x.den * y.den)

/-- Correctly rounded product. -/
def F64.mul (x y : F64) : F64 := roundRat (x.num * y.num) (x.den * y.den)

/-- Correctly rounded quotient (a zero divisor is not handled). -/
def F64.div (x y : F64) : F64 :=
  roundRat (if y.num < 0 then -(x.num * y.den) else x.num * y.den) (x.den * y.num.natAbs)

/-- Negation. -/
def F64.neg (x : F64) : F64 := ⟨-x.mant, x.exp⟩

/-- The conversion `float64(n)`. -/
def F64.ofNat (n : Nat) : F64 := roundRat n 1

/-- The function `math.Log2` at the three arguments the token `aabbbcccc` needs, the binary64
numbers nearest to 2/9, 1/3 and 4/9: the binary64 numbers nearest to their base-2 logarithms,
`-0x1.15c01a39fbd69p+1`, `-0x1.95c01a39fbd69p+0` and `-0x1.2b803473f7ad1p+0`.  Other arguments
are not tabulated and give 0. -/
def log2Table (x : F64) : F64 :=
  if x = ⟨0x1c71c71c71c71c, -55⟩ then ⟨-0x115c01a39fbd69, -51⟩
  else if x = ⟨0x15555555555555, -54⟩ then ⟨-0x195c01a39fbd69, -52⟩
  else if x = ⟨0x1c71c71c71c71c, -54⟩ then ⟨-0x12b803473f7ad1, -52⟩
  else ⟨0, 0⟩

/-- The binary64 operations, with `math.Log2` given by `log2Table`. -/
def binary64 : FloatOps F64 where
  zero := ⟨0, 0⟩
  one := F64.ofNat 1
  ofNat := F64.ofNat
  add := F64.add
  neg := F64.neg
  mul := F64.mul
  div := F64.div
  log2 := log2Table

/-! ## worker -/

/-- The type `Job`. -/
structure Job where
  word : GoString
  url : GoString
deriving DecidableEq

/-- The frequency table and the representative-URL table. -/
abbrev Tables := GoMap GoString Int × GoMap GoString GoString

/-- The critical section of `worker` for one job: `wordFrequency[job.word]++` and
`urlWord[job.word] = job.url`. -/
def workerStep (tables : Tables) (job : Job) : Tables :=
  (tables.1.insert job.word ((tables.1.lookup job.word).getD 0 + 1),
   tables.2.insert job.word job.url)

/-- The tables after the workers have processed `jobs` in this order. -/
def worker (jobs : List Job) (tables : Tables) : Tables :=
  jobs.foldl workerStep tables

/-! ## The dispatch loop of main -/

/-- The part of `url.URL` the core reads. -/
structure URL where
  Path : GoString
deriving DecidableEq

/-- The body of the `for scanner.Scan()` loop of `main` for one line: the job sent on the
channel, if any, and the entropy cache afterwards; `none` when indexing panics. -/
def dispatchLine {F : Type} [LinearOrderedField F] (parse : GoString → Option URL)
    (log2 : F → F) (position : Int) (entropyLevel : F) (entropyCache : GoMap GoString F)
    (line : GoString) : Option (Option Job × GoMap GoString F) :=
  match parse line with
  | none => some (none, entropyCache)
  | some u =>
    let pathArray := stringsSplit u.Path 0x2F
    if (pathArray.length : Int) > position then
      if position < 0 then none
      else
        match pathArray[position.toNat]? with
        | none => none
        | some word =>
          if (calculateEntropy log2 entropyCache word).1 ≤ entropyLevel then
            some (some ⟨word, line⟩, (calculateEntropy log2 entropyCache word).2)
          else some (none, (calculateEntropy log2 entropyCache word).2)
    else some (none, entropyCache)

/-- One line through dispatcher and worker: the entropy cache and the tables afterwards. -/
def processLine {F : Type} [LinearOrderedField F] (parse : GoString → Option URL)
    (log2 : F → F) (position : Int) (entropyLevel : F)
    (state : GoMap GoString F × Tables) (line : GoString) : Option (GoMap GoString F × Tables) :=
  match dispatchLine parse log2 position entropyLevel state.1 line with
  | none => none
  | some (none, cache) => some (cache, state.2)
  | some (some job, cache) => some (cache, workerStep state.2 job)

/-! ## The ranking step of main -/

/-- The map read `wordFrequency[w]`. -/
def freqOf (wordFrequency : GoMap GoString Int) (w : GoString) : Int :=
  (wordFrequency.lookup w).getD 0

/-- The comparator passed to `sort.Slice`, on the elements instead of their indices. -/
def less (wordFrequency : GoMap GoString Int) (a b : GoString) : Bool :=
  if freqOf wordFrequency a ≠ freqOf wordFrequency b then
    decide (freqOf wordFrequency a < freqOf wordFrequency b)
  else strLess a b

/-- Go `sort.Slice`: a sort by the comparator (here insertion sort; `sortSlice_unique` shows
that for the comparator of `main` every correct sort gives this result). -/
def sortSlice {α : Type} (lessFn : α → α → Bool) (xs : List α) : List α :=
  xs.insertionSort (fun a b => lessFn b a = false)

/-- The list `order` is an order in which `range` can visit the keys of `m`. -/
def RangeOrder {V : Type} (m : GoMap GoString V) (order : List GoString) : Prop :=
  order.Nodup ∧ order.toFinset = m.keys

/-- Whether a list is a possible `range` order of a map can be computed. -/
instance rangeOrderDecidable {V : Type} (m : GoMap GoString V) (order : List GoString) :
    Decidable (RangeOrder m order) :=
  inferInstanceAs (Decidable (order.Nodup ∧ order.toFinset = m.keys))

/-- Collect the keys in the order `range` delivers them, then `sort.Slice`. -/
def rankSorted (wordFrequency : GoMap GoString Int) (order : List GoString) : List GoString :=
  sortSlice (less wordFrequency) order

/-- The truncation `if *topX == -1 || *topX > len(topWords) { *topX = len(topWords) };
topWords = topWords[:*topX]`; the slice expression panics on a negative bound. -/
def truncate (topWords : List GoString) (topX : Int) : Option (List GoString) :=
  let topX := if topX = -1 ∨ topX > (topWords.length : Int) then (topWords.length : Int) else topX
  if 0 ≤ topX ∧ topX ≤ (topWords.length : Int) then some (topWords.take topX.toNat) else none

/-- The ranking step of `main`: collect, sort, truncate. -/
def rank (wordFrequency : GoMap GoString Int) (order : List GoString) (topX : Int) :
    Option (List GoString) :=
  truncate (rankSorted wordFrequency order) topX

/-- The order of two adjacent results that the ranking promises: count ascending, then token
ascending. -/
def RankLe (wordFrequency : GoMap GoString Int) (a b : GoString) : Prop :=
  freqOf wordFrequency a < freqOf wordFrequency b ∨
    (freqOf wordFrequency a = freqOf wordFrequency b ∧ (a = b ∨ strLess a b = true))

/-! ## Example inputs -/

/-- The bytes of an ASCII literal. -/
def ascii (s : String) : GoString := s.data.map Char.toNat

/-- The jobs of the three lines `http://a.com/x/abc123`, `http://a.com/x/abc123`,
`http://a.com/x/q` at position 2. -/
def scenarioJobs : List Job :=
  [⟨ascii "abc123", ascii "http://a.com/x/abc123"⟩,
   ⟨ascii "abc123", ascii "http://a.com/x/abc123"⟩,
   ⟨ascii "q", ascii "http://a.com/x/q"⟩]

/-- The tables after the workers have processed `scenarioJobs`. -/
def scenarioTables : Tables := worker scenarioJobs (∅, ∅)

/-- A stand-in for `url.Parse` on the lines of the scenario: the path of `http://a.com/x/q`
is `/x/q`, that of `http://a.com/x/abc123` is `/x/abc123`; other lines do not parse. -/
def scenarioParse (line : GoString) : Option URL :=
  if line = ascii "http://a.com/x/q" then some ⟨ascii "/x/q"⟩
  else if line = ascii "http://a.com/x/abc123" then some ⟨ascii "/x/abc123"⟩
  else none

/-- The token `aabbbcccc`, in which the code points `a`, `b`, `c` occur 2, 3 and 4 times. -/
def tokenAbc : GoString := ascii "aabbbcccc"

/-! ## Basic facts: strings -/

theorem strLess_iff_lex (a b : GoString) : strLess a b = true ↔ List.Lex (· < ·) a b := by
  induction a generalizing b with
  | nil =>
    cases b with
    | nil => simp [strLess]
    | cons y ys => simpa [strLess] using List.Lex.nil
  | cons x xs ih =>
    cases b with
    | nil => simp [strLess]
    | cons y ys =>
      simp only [strLess]
      rcases lt_trichotomy x y with h | h | h
      · simp [h, List.Lex.rel h]
      · subst h; simp [ih, List.Lex.cons_iff]
      · have h' : ¬ x < y := by omega
        simp only [h', h, if_true, if_false]
        constructor
        · intro hf; cases hf
        · intro hl
          cases hl with
          | cons hl => omega
          | rel hl => omega

theorem strLess_irrefl (a : GoString) : strLess a a = false := by
  have h := (strLess_iff_lex a a).not
  have hi : ¬ List.Lex (· < ·) a a := irrefl_of (List.Lex (· < ·)) a
  simpa using h.2 hi

theorem strLess_trans {a b c : GoString} (hab : strLess a b = true) (hbc : strLess b c = true) :
    strLess a c = true := by
  rw [strLess_iff_lex] at *
  exact trans_of (List.Lex (· < ·)) hab hbc

theorem strLess_false_iff (a b : GoString) :
    strLess b a = false ↔ (a = b ∨ strLess a b = true) := by
  constructor
  · intro h
    rcases (List.Lex.isTrichotomous (fun x y : Nat => x < y)).trichotomous a b with hl | he | hg
    · exact Or.inr ((strLess_iff_lex a b).2 hl)
    · exact Or.inl he
    · rw [(strLess_iff_lex b a).2 hg] at h; cases h
  · rintro (rfl | h)
    · exact strLess_irrefl a
    · cases hba : strLess b a with
      | false => rfl
      | true =>
        have := strLess_trans h hba
        rw [strLess_irrefl] at this; cases this

/-! ## Basic facts: the comparator and the sort -/

theorem less_false_iff (wf : GoMap GoString Int) (a b : GoString) :
    less wf b a = false ↔ RankLe wf a b := by
  unfold less RankLe
  by_cases h : freqOf wf b = freqOf wf a
  · simp only [h, ne_eq, not_true_eq_false, if_false, lt_irrefl, false_or, true_and]
    exact strLess_false_iff a b
  · have h2 : ¬ freqOf wf a = freqOf wf b := fun e => h e.symm
    simp only [ne_eq, h, not_false_eq_true, if_true, decide_eq_false_iff_not, not_lt, h2,
      false_and, or_false]
    omega

theorem rankLe_total (wf : GoMap GoString Int) (a b : GoString) :
    RankLe wf a b ∨ RankLe wf b a := by
  unfold RankLe
  rcases lt_trichotomy (freqOf wf a) (freqOf wf b) with h | h | h
  · exact Or.inl (Or.inl h)
  · rcases Bool.eq_false_or_eq_true (strLess b a) with hba | hba
    · exact Or.inr (Or.inr ⟨h.symm, Or.inr hba⟩)
    · exact Or.inl (Or.inr ⟨h, (strLess_false_iff a b).1 hba⟩)
  · exact Or.inr (Or.inl h)

theorem rankLe_trans (wf : GoMap GoString Int) {a b c : GoString} (hab : RankLe wf a b)
    (hbc : RankLe wf b c) : RankLe wf a c := by
  unfold RankLe at *
  rcases hab with h1 | ⟨h1, e1⟩
  · rcases hbc with h2 | ⟨h2, _⟩
    · exact Or.inl (by omega)
    · exact Or.inl (by omega)
  · rcases hbc with h2 | ⟨h2, e2⟩
    · exact Or.inl (by omega)
    · refine Or.inr ⟨by omega, ?_⟩
      rcases e1 with rfl | e1
      · exact e2
      · rcases e2 with rfl | e2
        · exact Or.inr e1
        · exact Or.inr (strLess_trans e1 e2)

theorem rankLe_antisymm (wf : GoMap GoString Int) {a b : GoString} (hab : RankLe wf a b)
    (hba : RankLe wf b a) : a = b := by
  unfold RankLe at *
  rcases hab with h1 | ⟨h1, e1⟩
  · rcases hba with h2 | ⟨h2, _⟩ <;> omega
  · rcases hba with h2 | ⟨_, e2⟩
    · omega
    · rcases e1 with rfl | e1
      · rfl
      · rcases e2 with rfl | e2
        · rfl
        · have := strLess_trans e1 e2
          rw [strLess_irrefl] at this; cases this

theorem rankSorted_perm (wf : GoMap GoString Int) (order : List GoString) :
    (rankSorted wf order).Perm order :=
  List.perm_insertionSort _ order

theorem rankSorted_sorted (wf : GoMap GoString Int) (order : List GoString) :
    List.Sorted (RankLe wf) (rankSorted wf order) := by
  haveI : IsTotal GoString (fun a b => less wf b a = false) :=
    ⟨fun a b => by
      rcases rankLe_total wf a b with h | h
      · exact Or.inl ((less_false_iff wf a b).2 h)
      · exact Or.inr ((less_false_iff wf b a).2 h)⟩
  haveI : IsTrans GoString (fun a b => less wf b a = false) :=
    ⟨fun a b c hab hbc =>
      (less_false_iff wf a c).2
        (rankLe_trans wf ((less_false_iff wf a b).1 hab) ((less_false_iff wf b c).1 hbc))⟩
  have h := List.sorted_insertionSort (fun a b => less wf b a = false) order
  exact List.Pairwise.imp (fun {a b} hab => (less_false_iff wf a b).1 hab) h

/-- Every result that `sort.Slice` may return for the comparator of `main` (a permutation of
the input in which no later element is less than an earlier one) is the list `rankSorted`
computes, whatever sorting algorithm is used. -/
theorem sortSlice_unique (wf : GoMap GoString Int) (order out : List GoString)
    (hperm : out.Perm order) (hsorted : List.Pairwise (fun a b => less wf b a = false) out) :
    out = rankSorted wf order := by
  haveI : IsAntisymm GoString (RankLe wf) := ⟨fun a b hab hba => rankLe_antisymm wf hab hba⟩
  refine List.eq_of_perm_of_sorted (hperm.trans (rankSorted_perm wf order).symm) ?_
    (rankSorted_sorted wf order)
  exact List.Pairwise.imp (fun {a b} hab => (less_false_iff wf a b).1 hab) hsorted

theorem rangeOrder_perm {V : Type} (m : GoMap GoString V) {o1 o2 : List GoString}
    (h1 : RangeOrder m o1) (h2 : RangeOrder m o2) : o1.Perm o2 :=
  List.perm_of_nodup_nodup_toFinset_eq h1.1 h2.1 (h1.2.trans h2.2.symm)

theorem rangeOrder_mem {V : Type} (m : GoMap GoString V) {order : List GoString}
    (h : RangeOrder m order) (w : GoString) : w ∈ order ↔ w ∈ m.keys := by
  rw [← h.2, List.mem_toFinset]

theorem rangeOrder_length {V : Type} (m : GoMap GoString V) {order : List GoString}
    (h : RangeOrder m order) : order.length = m.keys.card := by
  rw [← h.2, List.toFinset_card_of_nodup h.1]

theorem rankSorted_congr (wf : GoMap GoString Int) {o1 o2 : List GoString} (h : o1.Perm o2) :
    rankSorted wf o1 = rankSorted wf o2 := by
  haveI : IsAntisymm GoString (RankLe wf) := ⟨fun a b hab hba => rankLe_antisymm wf hab hba⟩
  exact List.eq_of_perm_of_sorted
    (((rankSorted_perm wf o1).trans h).trans (rankSorted_perm wf o2).symm)
    (rankSorted_sorted wf o1) (rankSorted_sorted wf o2)

theorem truncate_of_nonneg (topWords : List GoString) (topX : Int) (h : 0 ≤ topX) :
    truncate topWords topX = some (topWords.take topX.toNat) := by
  unfold truncate
  by_cases hgt : topX > (topWords.length : Int)
  · have hc : topX = -1 ∨ topX > (topWords.length : Int) := Or.inr hgt
    simp only [hc, if_true, le_refl, and_true, Int.toNat_ofNat]
    have h0 : (0 : Int) ≤ (topWords.length : Int) := Int.ofNat_nonneg _
    rw [if_pos h0, List.take_of_length_le (le_refl _), List.take_of_length_le (by omega)]
  · have hc : ¬ (topX = -1 ∨ topX > (topWords.length : Int)) := by omega
    have h2 : 0 ≤ topX ∧ topX ≤ (topWords.length : Int) := by omega
    simp only [hc, if_false, h2, and_self, if_true]

theorem truncate_neg_one (topWords : List GoString) : truncate topWords (-1) = some topWords := by
  unfold truncate
  have h0 : (0 : Int) ≤ (topWords.length : Int) := Int.ofNat_nonneg _
  simp [h0]

/-! ## Basic facts: the worker -/

theorem worker_cons (job : Job) (jobs : List Job) (tables : Tables) :
    worker (job :: jobs) tables = worker jobs (workerStep tables job) := rfl

theorem workerStep_freq_lookup (tables : Tables) (job : Job) (w : GoString) :
    (workerStep tables job).1.lookup w =
      if job.word = w then some ((tables.1.lookup w).getD 0 + 1) else tables.1.lookup w := by
  unfold workerStep
  by_cases h : job.word = w
  · subst h; simp [Finmap.lookup_insert]
  · have h2 : w ≠ job.word := fun e => h e.symm
    simp [h, Finmap.lookup_insert_of_ne _ h2]

theorem workerStep_url_lookup (tables : Tables) (job : Job) (w : GoString) :
    (workerStep tables job).2.lookup w =
      if job.word = w then some job.url else tables.2.lookup w := by
  unfold workerStep
  by_cases h : job.word = w
  · subst h; simp [Finmap.lookup_insert]
  · have h2 : w ≠ job.word := fun e => h e.symm
    simp [h, Finmap.lookup_insert_of_ne _ h2]

theorem worker_freq_lookup (jobs : List Job) (tables : Tables) (w : GoString) :
    (worker jobs tables).1.lookup w =
      if jobs.countP (fun j => decide (j.word = w)) = 0 then tables.1.lookup w
      else some ((tables.1.lookup w).getD 0 + (jobs.countP (fun j => decide (j.word = w)) : Int))
    := by
  induction jobs generalizing tables with
  | nil => simp [worker]
  | cons job jobs ih =>
    rw [worker_cons, ih, workerStep_freq_lookup, List.countP_cons]
    by_cases hw : job.word = w
    · simp only [hw, if_true, decide_True, Option.getD_some]
      by_cases hc : jobs.countP (fun j => decide (j.word = w)) = 0
      · simp [hc]
      · simp only [hc, if_false, Nat.add_eq_zero, one_ne_zero, and_false, Option.some.injEq]
        push_cast; ring
    · simp [hw]

theorem worker_mem_freq (jobs : List Job) (tables : Tables) (w : GoString) :
    w ∈ (worker jobs tables).1 ↔ w ∈ tables.1 ∨ ∃ j ∈ jobs, j.word = w := by
  induction jobs generalizing tables with
  | nil => simp [worker]
  | cons job jobs ih =>
    rw [worker_cons, ih]
    simp only [workerStep, Finmap.mem_insert, List.mem_cons, exists_eq_or_imp]
    constructor
    · rintro ((h | h) | h)
      · exact Or.inr (Or.inl h.symm)
      · exact Or.inl h
      · exact Or.inr (Or.inr h)
    · rintro (h | h | h)
      · exact Or.inl (Or.inr h)
      · exact Or.inl (Or.inl h.symm)
      · exact Or.inr h

theorem worker_mem_url (jobs : List Job) (tables : Tables) (w : GoString) :
    w ∈ (worker jobs tables).2 ↔ w ∈ tables.2 ∨ ∃ j ∈ jobs, j.word = w := by
  induction jobs generalizing tables with
  | nil => simp [worker]
  | cons job jobs ih =>
    rw [worker_cons, ih]
    simp only [workerStep, Finmap.mem_insert, List.mem_cons, exists_eq_or_imp]
    constructor
    · rintro ((h | h) | h)
      · exact Or.inr (Or.inl h.symm)
      · exact Or.inl h
      · exact Or.inr (Or.inr h)
    · rintro (h | h | h)
      · exact Or.inl (Or.inr h)
      · exact Or.inl (Or.inl h.symm)
      · exact Or.inr h

theorem worker_url_lookup (jobs : List Job) (tables : Tables) (w u : GoString)
    (h : (worker jobs tables).2.lookup w = some u) :
    tables.2.lookup w = some u ∨ ∃ j ∈ jobs, j.word = w ∧ j.url = u := by
  induction jobs generalizing tables with
  | nil => exact Or.inl h
  | cons job jobs ih =>
    rw [worker_cons] at h
    rcases ih _ h with h1 | ⟨j, hj, hw, hu⟩
    · rw [workerStep_url_lookup] at h1
      by_cases hw : job.word = w
      · rw [if_pos hw] at h1
        exact Or.inr ⟨job, List.mem_cons_self _ _, hw, Option.some.inj h1⟩
      · rw [if_neg hw] at h1
        exact Or.inl h1
    · exact Or.inr ⟨j, List.mem_cons_of_mem _ hj, hw, hu⟩

/-! ## The claims on the worker -/

/-- C8: the final frequency table does not depend on the order of the jobs.  For every list
of jobs and every permutation of it, folding the update step of the worker over either, from
the empty tables, gives the same token-to-count map, and in it the count of a token is the
number of jobs that carry the token (a token no job carries has no entry). -/
theorem frequency_table_order_invariant (jobs jobs2 : List Job) (h : jobs.Perm jobs2) :
    (worker jobs (∅, ∅)).1 = (worker jobs2 (∅, ∅)).1 ∧
      ∀ w, (worker jobs (∅, ∅)).1.lookup w =
        if jobs.countP (fun j => decide (j.word = w)) = 0 then none
        else some (jobs.countP (fun j => decide (j.word = w)) : Int) := by
  have hl : ∀ (js : List Job) (w : GoString), (worker js (∅, ∅)).1.lookup w =
      if js.countP (fun j => decide (j.word = w)) = 0 then none
      else some (js.countP (fun j => decide (j.word = w)) : Int) := by
    intro js w
    rw [worker_freq_lookup]
    simp
  refine ⟨Finmap.ext_lookup (fun w => ?_), hl jobs⟩
  rw [hl jobs w, hl jobs2 w, h.countP_eq]

/-- C8 on the scenario: the three jobs in reverse order give the same table, in which
`abc123` has count 2 and `q` has count 1. -/
theorem frequency_table_order_invariant_witness :
    scenarioJobs.Perm scenarioJobs.reverse ∧
      (worker scenarioJobs (∅, ∅)).1 = (worker scenarioJobs.reverse (∅, ∅)).1 ∧
      (worker scenarioJobs (∅, ∅)).1.lookup (ascii "abc123") = some 2 ∧
      (worker scenarioJobs (∅, ∅)).1.lookup (ascii "q") = some 1 :=
  ⟨(List.reverse_perm scenarioJobs).symm,
    (frequency_table_order_invariant scenarioJobs scenarioJobs.reverse
      (List.reverse_perm scenarioJobs).symm).1,
    by decide, by decide⟩

/-- C10: after the update step of the worker has been applied to any sequence of jobs, from
the empty tables, the frequency table and the representative-URL table have the same key set,
every count is positive, and the representative URL of a token is the URL of a job that
carried the token. -/
theorem tables_consistent (jobs : List Job) :
    (worker jobs (∅, ∅)).1.keys = (worker jobs (∅, ∅)).2.keys ∧
      (∀ w c, (worker jobs (∅, ∅)).1.lookup w = some c → 0 < c) ∧
      (∀ w u, (worker jobs (∅, ∅)).2.lookup w = some u →
        ∃ job ∈ jobs, job.word = w ∧ job.url = u) := by
  refine ⟨?_, ?_, ?_⟩
  · ext w
    rw [Finmap.mem_keys, Finmap.mem_keys, worker_mem_freq, worker_mem_url]
    simp [Finmap.not_mem_empty]
  · intro w c hc
    rw [worker_freq_lookup] at hc
    by_cases h0 : jobs.countP (fun j => decide (j.word = w)) = 0
    · rw [if_pos h0] at hc; simp at hc
    · rw [if_neg h0] at hc
      simp only [Finmap.lookup_empty, Option.getD_none, zero_add, Option.some.injEq] at hc
      omega
  · intro w u hu
    rcases worker_url_lookup jobs (∅, ∅) w u hu with h | h
    · simp at h
    · exact h

/-- C10 on the scenario: the representative URL of `q` is the URL of the job that carried
it. -/
theorem tables_consistent_witness :
    (worker scenarioJobs (∅, ∅)).2.lookup (ascii "q") = some (ascii "http://a.com/x/q") ∧
      ∃ job ∈ scenarioJobs, job.word = ascii "q" ∧ job.url = ascii "http://a.com/x/q" :=
  ⟨by decide, (tables_consistent scenarioJobs).2.2 _ _ (by decide)⟩

/-! ## Basic facts: calculateEntropy and its cache -/

theorem runeCounts_foldl_lookup {F : Type} [LinearOrderedField F] (rs : List Rune)
    (m : GoMap Rune F) (c : Rune) :
    (rs.foldl (fun m c => m.insert c ((m.lookup c).getD 0 + 1)) m).lookup c =
      if rs.count c = 0 then m.lookup c else some ((m.lookup c).getD 0 + (rs.count c : F)) := by
  induction rs generalizing m with
  | nil => simp
  | cons r rs ih =>
    rw [List.foldl_cons, ih, List.count_cons]
    by_cases hr : r = c
    · subst hr
      simp only [Finmap.lookup_insert, Option.getD_some, beq_self_eq_true, if_true]
      by_cases hc : rs.count r = 0
      · simp [hc]
      · simp only [hc, if_false, Nat.add_eq_zero, one_ne_zero, and_false, Option.some.injEq]
        push_cast; ring
    · have h2 : c ≠ r := fun e => hr e.symm
      have h3 : (r == c) = false := by simpa using hr
      simp [Finmap.lookup_insert_of_ne _ h2, h3]

theorem runeCounts_lookup {F : Type} [LinearOrderedField F] (rs : List Rune) (c : Rune) :
    (runeCounts rs : GoMap Rune F).lookup c =
      if rs.count c = 0 then none else some (rs.count c : F) := by
  unfold runeCounts
  rw [runeCounts_foldl_lookup]
  simp

theorem runeCounts_keys {F : Type} [LinearOrderedField F] (rs : List Rune) :
    (runeCounts rs : GoMap Rune F).keys = rs.toFinset := by
  ext c
  rw [Finmap.mem_keys, Finmap.mem_iff, runeCounts_lookup, List.mem_toFinset]
  by_cases hc : rs.count c = 0
  · simp [hc, List.count_eq_zero.1 hc]
  · have hm : c ∈ rs := by
      by_contra hn
      exact hc (List.count_eq_zero.2 hn)
    simp [hc, hm]

theorem entries_sum_eq_keys_sum {F : Type} [LinearOrderedField F] (m : GoMap Rune F)
    (g : F → F) :
    (m.entries.map (fun e => g e.2)).sum = ∑ c in m.keys, g ((m.lookup c).getD 0) := by
  have hk : m.keys.val = m.entries.map Sigma.fst := rfl
  rw [Finset.sum_eq_multiset_sum, hk, Multiset.map_map]
  congr 1
  refine Multiset.map_congr rfl (fun e he => ?_)
  have hl : m.lookup e.1 = some e.2 := Finmap.mem_lookup_iff.2 he
  simp [hl]

/-- What the code computes on a cache miss: the sum runs over the distinct code points, and
each count is divided by `len(word)`, the number of bytes. -/
theorem calculateEntropy_miss {F : Type} [LinearOrderedField F] (log2 : F → F)
    (cache : GoMap GoString F) (word : GoString) (h : cache.lookup word = none) :
    (calculateEntropy log2 cache word).1 =
      - ∑ c in (runes word).toFinset,
          (((runes word).count c : F) / (word.length : F)) *
            log2 (((runes word).count c : F) / (word.length : F)) := by
  unfold calculateEntropy
  rw [h]
  simp only [entropySum]
  rw [entries_sum_eq_keys_sum (runeCounts (runes word))
    (fun x => (x / (word.length : F)) * log2 (x / (word.length : F))), runeCounts_keys]
  congr 1
  refine Finset.sum_congr rfl (fun c hc => ?_)
  have hc2 : (runes word).count c ≠ 0 := by
    intro h0
    exact List.count_eq_zero.1 h0 (List.mem_toFinset.1 hc)
  rw [runeCounts_lookup, if_neg hc2]
  rfl

theorem calculateEntropy_hit {F : Type} [LinearOrderedField F] (log2 : F → F)
    (cache : GoMap GoString F) (word : GoString) (v : F) (h : cache.lookup word = some v) :
    calculateEntropy log2 cache word = (v, cache) := by
  unfold calculateEntropy
  rw [h]

theorem calculateEntropy_miss_cache {F : Type} [LinearOrderedField F] (log2 : F → F)
    (cache : GoMap GoString F) (word : GoString) (h : cache.lookup word = none) :
    (calculateEntropy log2 cache word).2 =
      cache.insert word (calculateEntropy log2 ∅ word).1 := by
  unfold calculateEntropy
  rw [h, Finmap.lookup_empty]

theorem calculateEntropy_miss_eq {F : Type} [LinearOrderedField F] (log2 : F → F)
    (cache : GoMap GoString F) (word : GoString) (h : cache.lookup word = none) :
    (calculateEntropy log2 cache word).1 = (calculateEntropy log2 ∅ word).1 := by
  unfold calculateEntropy
  rw [h, Finmap.lookup_empty]

theorem cacheSound_step {F : Type} [LinearOrderedField F] (log2 : F → F)
    (cache : GoMap GoString F) (word : GoString) (h : CacheSound log2 cache) :
    CacheSound log2 (calculateEntropy log2 cache word).2 := by
  cases hl : cache.lookup word with
  | some v => rw [calculateEntropy_hit log2 cache word v hl]; exact h
  | none =>
    rw [calculateEntropy_miss_cache log2 cache word hl]
    intro w v hv
    by_cases hw : w = word
    · subst hw
      rw [Finmap.lookup_insert] at hv
      exact (Option.some.inj hv).symm
    · rw [Finmap.lookup_insert_of_ne _ hw] at hv
      exact h w v hv

theorem cacheSound_foldl {F : Type} [LinearOrderedField F] (log2 : F → F)
    (words : List GoString) (cache : GoMap GoString F) (h : CacheSound log2 cache) :
    CacheSound log2 (words.foldl (fun cache w => (calculateEntropy log2 cache w).2) cache) := by
  induction words generalizing cache with
  | nil => exact h
  | cons w ws ih => exact ih _ (cacheSound_step log2 cache w h)

theorem cacheSound_cacheAfter {F : Type} [LinearOrderedField F] (log2 : F → F)
    (words : List GoString) : CacheSound log2 (cacheAfter log2 words) :=
  cacheSound_foldl log2 words ∅ (fun w v hv => by simp at hv)

theorem calculateEntropy_of_sound {F : Type} [LinearOrderedField F] (log2 : F → F)
    (cache : GoMap GoString F) (word : GoString) (h : CacheSound log2 cache) :
    (calculateEntropy log2 cache word).1 = (calculateEntropy log2 ∅ word).1 := by
  cases hl : cache.lookup word with
  | some v => rw [calculateEntropy_hit log2 cache word v hl]; exact h word v hl
  | none => exact calculateEntropy_miss_eq log2 cache word hl

theorem calculateEntropy_keeps {F : Type} [LinearOrderedField F] (log2 : F → F)
    (cache : GoMap GoString F) (word w : GoString) (v : F) (h : cache.lookup w = some v) :
    (calculateEntropy log2 cache word).2.lookup w = some v := by
  cases hl : cache.lookup word with
  | some v2 => rw [calculateEntropy_hit log2 cache word v2 hl]; exact h
  | none =>
    rw [calculateEntropy_miss_cache log2 cache word hl]
    have hw : w ≠ word := by
      intro e
      rw [e, hl] at h
      cases h
    rw [Finmap.lookup_insert_of_ne _ hw]
    exact h

theorem foldl_keeps {F : Type} [LinearOrderedField F] (log2 : F → F) (more : List GoString)
    (cache : GoMap GoString F) (w : GoString) (v : F) (h : cache.lookup w = some v) :
    (more.foldl (fun cache w => (calculateEntropy log2 cache w).2) cache).lookup w = some v := by
  induction more generalizing cache with
  | nil => exact h
  | cons x xs ih => exact ih _ (calculateEntropy_keeps log2 cache x w v h)

theorem cacheAfter_append {F : Type} [LinearOrderedField F] (log2 : F → F)
    (words more : List GoString) :
    cacheAfter log2 (words ++ more) =
      more.foldl (fun cache w => (calculateEntropy log2 cache w).2) (cacheAfter log2 words) := by
  unfold cacheAfter
  rw [List.foldl_append]

/-! ## Basic facts: the value of the score over the reals -/

theorem runesFrom_length_le (skip : Nat) (word : GoString) :
    (runesFrom skip word).length ≤ word.length := by
  induction word generalizing skip with
  | nil => simp [runesFrom]
  | cons b rest ih =>
    cases skip with
    | zero =>
      simp only [runesFrom, List.length_cons]
      have := ih ((decoderune (b :: rest)).2 - 1)
      omega
    | succ k =>
      simp only [runesFrom, List.length_cons]
      have := ih k
      omega

theorem runes_length_le (word : GoString) : (runes word).length ≤ word.length :=
  runesFrom_length_le 0 word

theorem runes_of_ascii (word : GoString) (h : ∀ b ∈ word, b < 0x80) : runes word = word := by
  unfold runes
  induction word with
  | nil => rfl
  | cons b rest ih =>
    have hb : b < 0x80 := h b (List.mem_cons_self _ _)
    have hd : decoderune (b :: rest) = (b, 1) := by simp [decoderune, hb]
    simp only [runesFrom, hd]
    rw [ih (fun x hx => h x (List.mem_cons_of_mem _ hx))]

/-- Where every code point of the token is one byte wide, the code computes the Shannon
entropy of the specification. -/
theorem calculateEntropy_eq_shannon {F : Type} [LinearOrderedField F] (log2 : F → F)
    (word : GoString) (h : (runes word).length = word.length) :
    (calculateEntropy log2 ∅ word).1 = shannonEntropy log2 word := by
  rw [calculateEntropy_miss _ _ _ (Finmap.lookup_empty _)]
  unfold shannonEntropy
  rw [h]

theorem entropy_term_nonpos (word : GoString) (c : Rune) (hc : c ∈ runes word) :
    (((runes word).count c : ℝ) / (word.length : ℝ)) *
      Real.logb 2 (((runes word).count c : ℝ) / (word.length : ℝ)) ≤ 0 := by
  have hle : (runes word).count c ≤ word.length :=
    le_trans (List.count_le_length c (runes word)) (runes_length_le word)
  have hcnt : 0 < (runes word).count c := List.count_pos_iff.2 hc
  have hlen : (0 : ℝ) < (word.length : ℝ) := by
    have : 0 < word.length := by omega
    exact_mod_cast this
  have hp0 : (0 : ℝ) ≤ ((runes word).count c : ℝ) / (word.length : ℝ) := by positivity
  have hp1 : ((runes word).count c : ℝ) / (word.length : ℝ) ≤ 1 := by
    rw [div_le_one hlen]
    exact_mod_cast hle
  exact mul_nonpos_of_nonneg_of_nonpos hp0 (Real.logb_nonpos (by norm_num) hp0 hp1)

/-- The score is never negative. -/
theorem calculateEntropy_nonneg (word : GoString) :
    0 ≤ (calculateEntropy (Real.logb 2) ∅ word).1 := by
  rw [calculateEntropy_miss _ _ _ (Finmap.lookup_empty _), neg_nonneg]
  exact Finset.sum_nonpos (fun c hc => entropy_term_nonpos word c (List.mem_toFinset.1 hc))

/-- The score of a non-empty token is 0 exactly when the token is one code point repeated and
that code point is one byte wide (the token has as many code points as bytes). -/
theorem calculateEntropy_eq_zero_iff (word : GoString) (hne : word ≠ []) :
    (calculateEntropy (Real.logb 2) ∅ word).1 = 0 ↔
      ∃ c, runes word = List.replicate word.length c := by
  have hlenN : 0 < word.length := List.length_pos.2 hne
  have hlen : (0 : ℝ) < (word.length : ℝ) := by exact_mod_cast hlenN
  rw [calculateEntropy_miss _ _ _ (Finmap.lookup_empty _), neg_eq_zero]
  constructor
  · intro hsum
    have hall := (Finset.sum_eq_zero_iff_of_nonpos
      (fun c hc => entropy_term_nonpos word c (List.mem_toFinset.1 hc))).1 hsum
    obtain ⟨b, rest, hw⟩ := List.exists_cons_of_ne_nil hne
    have hmem : (decoderune (b :: rest)).1 ∈ runes word := by
      rw [hw]
      simp [runes, runesFrom]
    obtain ⟨c, hc⟩ : ∃ c, c ∈ runes word := ⟨_, hmem⟩
    have hcnt : 0 < (runes word).count c := List.count_pos_iff.2 hc
    have hle : (runes word).count c ≤ (runes word).length :=
      List.count_le_length c (runes word)
    have hle2 := runes_length_le word
    have hterm := hall c (List.mem_toFinset.2 hc)
    have hp0 : (0 : ℝ) < ((runes word).count c : ℝ) / (word.length : ℝ) := by positivity
    have hp1 : ((runes word).count c : ℝ) / (word.length : ℝ) ≤ 1 := by
      rw [div_le_one hlen]
      exact_mod_cast le_trans hle hle2
    have hlog : Real.logb 2 (((runes word).count c : ℝ) / (word.length : ℝ)) = 0 := by
      rcases mul_eq_zero.1 hterm with h | h
      · exact absurd h (ne_of_gt hp0)
      · exact h
    have hp : ((runes word).count c : ℝ) / (word.length : ℝ) = 1 := by
      rcases lt_or_eq_of_le hp1 with hlt | heq
      · have := Real.logb_neg (by norm_num : (1 : ℝ) < 2) hp0 hlt
        rw [hlog] at this
        exact absurd this (lt_irrefl _)
      · exact heq
    have hce : (runes word).count c = word.length := by
      rw [div_eq_one_iff_eq (ne_of_gt hlen)] at hp
      exact_mod_cast hp
    have hcl : (runes word).count c = (runes word).length := by omega
    refine ⟨c, ?_⟩
    rw [List.eq_replicate_iff]
    refine ⟨by omega, fun x hx => ?_⟩
    exact ((List.count_eq_length.1 hcl) x hx).symm
  · rintro ⟨c, hc⟩
    rw [hc, List.toFinset_replicate_of_ne_zero (by omega), Finset.sum_singleton,
      List.count_replicate_self, div_self (ne_of_gt hlen)]
    simp

/-! ## The empty token -/

/-- C7: `calculateEntropy` on the empty string returns 0, for every state of the cache
reached by earlier calls; the code has no special case, the loop over the (empty) rune map is
not entered, so nothing is divided. -/
theorem calculateEntropy_empty_string {F : Type} [LinearOrderedField F] (log2 : F → F)
    (words : List GoString) :
    (calculateEntropy log2 (cacheAfter log2 words) []).1 = 0 := by
  rw [calculateEntropy_of_sound log2 _ [] (cacheSound_cacheAfter log2 words)]
  simp [calculateEntropy, entropySum, runeCounts, runes, runesFrom]

/-- In exact arithmetic, where the sum over the rune map does not depend on the visiting order:
for every cache reached from the empty cache by a sequence of calls and every token, the call
returns the score it returns with an empty cache, and an entry of the cache keeps its value
through every later call. -/
theorem calculateEntropy_exact_cache_independent {F : Type} [LinearOrderedField F]
    (log2 : F → F) (words : List GoString) (token : GoString) :
    (calculateEntropy log2 (cacheAfter log2 words) token).1 =
        (calculateEntropy log2 ∅ token).1 ∧
      ∀ (more : List GoString) (w : GoString) (v : F),
        (cacheAfter log2 words).lookup w = some v →
          (cacheAfter log2 (words ++ more)).lookup w = some v := by
  refine ⟨calculateEntropy_of_sound log2 _ token (cacheSound_cacheAfter log2 words), ?_⟩
  intro more w v h
  rw [cacheAfter_append]
  exact foldl_keeps log2 more _ w v h

/-! ## calculateEntropy with explicit operations: basic facts -/

theorem foldl_add_eq_sum {F : Type} [LinearOrderedField F] (g : Rune → F) (order : List Rune)
    (a : F) : order.foldl (fun entropy c => entropy + g c) a = a + (order.map g).sum := by
  induction order generalizing a with
  | nil => simp
  | cons c cs ih => rw [List.foldl_cons, ih, List.map_cons, List.sum_cons, add_assoc]

/-- With exact operations the loop over the rune map gives the same sum for every order in
which `range m` can visit the map. -/
theorem entropySumIn_exact {F : Type} [LinearOrderedField F] (log2 : F → F)
    (m : GoMap Rune F) (len : Nat) (order : List Rune) (h : RuneOrder m order) :
    entropySumIn (exactOps log2) m len order = entropySum log2 m len := by
  unfold entropySumIn entropySum
  rw [entries_sum_eq_keys_sum m (fun x => (x / (len : F)) * log2 (x / (len : F))), ← h.2,
    List.sum_toFinset _ h.1]
  simp only [exactOps]
  rw [foldl_add_eq_sum (fun c => ((m.lookup c).getD 0 / (len : F)) *
    log2 ((m.lookup c).getD 0 / (len : F))) order 0, zero_add]

/-- With exact operations `calculateEntropyIn` is `calculateEntropy`, for every order in which
`range m` can visit the rune map of the token. -/
theorem calculateEntropyIn_exact {F : Type} [LinearOrderedField F] (log2 : F → F)
    (order : List Rune) (cache : GoMap GoString F) (word : GoString)
    (h : RuneOrder (runeCounts (runes word) : GoMap Rune F) order) :
    calculateEntropyIn (exactOps log2) order cache word = calculateEntropy log2 cache word := by
  have hm : runeCountsIn (exactOps log2) (runes word) = (runeCounts (runes word) : GoMap Rune F) :=
    rfl
  unfold calculateEntropyIn calculateEntropy
  cases cache.lookup word with
  | some v => rfl
  | none =>
    simp only [hm, entropySumIn_exact log2 _ word.length order h]
    rfl

theorem calculateEntropyIn_hit {F : Type} (ops : FloatOps F) (order : List Rune)
    (cache : GoMap GoString F) (word : GoString) (v : F) (h : cache.lookup word = some v) :
    calculateEntropyIn ops order cache word = (v, cache) := by
  unfold calculateEntropyIn
  rw [h]

theorem calculateEntropyIn_miss {F : Type} (ops : FloatOps F) (order : List Rune)
    (cache : GoMap GoString F) (word : GoString) (h : cache.lookup word = none) :
    calculateEntropyIn ops order cache word =
      ((calculateEntropyIn ops order ∅ word).1,
        cache.insert word (calculateEntropyIn ops order ∅ word).1) := by
  unfold calculateEntropyIn
  rw [h, Finmap.lookup_empty]

theorem calculateEntropyIn_keeps {F : Type} (ops : FloatOps F) (order : List Rune)
    (cache : GoMap GoString F) (word w : GoString) (v : F) (h : cache.lookup w = some v) :
    (calculateEntropyIn ops order cache word).2.lookup w = some v := by
  cases hl : cache.lookup word with
  | some v2 => rw [calculateEntropyIn_hit ops order cache word v2 hl]; exact h
  | none =>
    rw [calculateEntropyIn_miss ops order cache word hl]
    have hw : w ≠ word := by
      intro e
      rw [e, hl] at h
      cases h
    simp only
    rw [Finmap.lookup_insert_of_ne _ hw]
    exact h

theorem foldlIn_keeps {F : Type} (ops : FloatOps F) (more : List (GoString × List Rune))
    (cache : GoMap GoString F) (w : GoString) (v : F) (h : cache.lookup w = some v) :
    (more.foldl (fun cache call => (calculateEntropyIn ops call.2 cache call.1).2)
      cache).lookup w = some v := by
  induction more generalizing cache with
  | nil => exact h
  | cons x xs ih => exact ih _ (calculateEntropyIn_keeps ops x.2 cache x.1 w v h)

theorem cacheAfterIn_append {F : Type} (ops : FloatOps F)
    (calls more : List (GoString × List Rune)) :
    cacheAfterIn ops (calls ++ more) =
      more.foldl (fun cache call => (calculateEntropyIn ops call.2 cache call.1).2)
        (cacheAfterIn ops calls) := by
  unfold cacheAfterIn
  rw [List.foldl_append]

theorem foldlIn_origin {F : Type} (ops : FloatOps F) (calls : List (GoString × List Rune))
    (cache : GoMap GoString F) (w : GoString) (v : F)
    (h : (calls.foldl (fun cache call => (calculateEntropyIn ops call.2 cache call.1).2)
      cache).lookup w = some v) :
    cache.lookup w = some v ∨
      ∃ call ∈ calls, call.1 = w ∧ v = (calculateEntropyIn ops call.2 ∅ w).1 := by
  induction calls generalizing cache with
  | nil => exact Or.inl h
  | cons x xs ih =>
    rcases ih _ h with h1 | ⟨call, hc, hw, hv⟩
    · have h1 : (calculateEntropyIn ops x.2 cache x.1).2.lookup w = some v := h1
      cases hl : cache.lookup x.1 with
      | some v2 =>
        rw [calculateEntropyIn_hit ops x.2 cache x.1 v2 hl] at h1
        exact Or.inl h1
      | none =>
        rw [calculateEntropyIn_miss ops x.2 cache x.1 hl] at h1
        simp only at h1
        by_cases hw : w = x.1
        · subst hw
          rw [Finmap.lookup_insert] at h1
          exact Or.inr ⟨x, List.mem_cons_self _ _, rfl, (Option.some.inj h1).symm⟩
        · rw [Finmap.lookup_insert_of_ne _ hw] at h1
          exact Or.inl h1
    · exact Or.inr ⟨call, List.mem_cons_of_mem _ hc, hw, hv⟩

/-! ## The claim on the cache and the score -/

set_option maxRecDepth 100000 in
/-- C9, as the specification states it, fails in binary64 arithmetic: the rune map of the
token `aabbbcccc` can be visited in the order `a, b, c` or `c, b, a`; a first call that visits
it as `a, b, c` caches `0x1.87ce649987492p+0` (1.5304930567574826), which every later call
returns, while a call with an empty cache that visits it as `c, b, a` returns
`0x1.87ce649987491p+0` (1.5304930567574824). -/
theorem calculateEntropy_score_depends_on_range_order :
    RuneOrder (runeCountsIn binary64 (runes tokenAbc)) [0x61, 0x62, 0x63] ∧
      RuneOrder (runeCountsIn binary64 (runes tokenAbc)) [0x63, 0x62, 0x61] ∧
      (calculateEntropyIn binary64 [0x63, 0x62, 0x61]
          (cacheAfterIn binary64 [(tokenAbc, [0x61, 0x62, 0x63])]) tokenAbc).1 =
        ⟨0x187ce649987492, -52⟩ ∧
      (calculateEntropyIn binary64 [0x63, 0x62, 0x61] ∅ tokenAbc).1 =
        ⟨0x187ce649987491, -52⟩ := by
  decide

/-- C9, amended: for every cache reached from the empty cache by a sequence of calls, whatever
the rounding of the `float64` operations and the orders in which the rune maps are visited:
a call for a token that is in the cache returns the cached score and leaves the cache as it
is; a call for a token that is not in the cache returns the score it returns with an empty
cache for the same visiting order; every cached score is the score that the call of an
earlier visiting order returns with an empty cache; and an entry of the cache keeps its value
through every later call. -/
theorem calculateEntropy_cache_stable {F : Type} (ops : FloatOps F)
    (calls : List (GoString × List Rune)) (token : GoString) (order : List Rune) :
    (∀ v, (cacheAfterIn ops calls).lookup token = some v →
        calculateEntropyIn ops order (cacheAfterIn ops calls) token =
          (v, cacheAfterIn ops calls)) ∧
      ((cacheAfterIn ops calls).lookup token = none →
        (calculateEntropyIn ops order (cacheAfterIn ops calls) token).1 =
          (calculateEntropyIn ops order ∅ token).1) ∧
      (∀ w v, (cacheAfterIn ops calls).lookup w = some v →
        ∃ call ∈ calls, call.1 = w ∧ v = (calculateEntropyIn ops call.2 ∅ w).1) ∧
      (∀ (more : List (GoString × List Rune)) (w : GoString) (v : F),
        (cacheAfterIn ops calls).lookup w = some v →
          (cacheAfterIn ops (calls ++ more)).lookup w = some v) := by
  refine ⟨?_, ?_, ?_, ?_⟩
  · intro v h
    exact calculateEntropyIn_hit ops order _ token v h
  · intro h
    rw [calculateEntropyIn_miss ops order _ token h]
  · intro w v h
    rcases foldlIn_origin ops calls ∅ w v h with h0 | h1
    · simp at h0
    · exact h1
  · intro more w v h
    rw [cacheAfterIn_append]
    exact foldlIn_keeps ops more _ w v h

set_option maxRecDepth 100000 in
/-- C9 amended, in binary64 arithmetic: after a call that visits the rune map of `aabbbcccc`
as `a, b, c`, a call that would visit it as `c, b, a` returns the cached score and leaves the
cache as it is. -/
theorem calculateEntropy_cache_stable_witness :
    (cacheAfterIn binary64 [(tokenAbc, [0x61, 0x62, 0x63])]).lookup tokenAbc =
        some ⟨0x187ce649987492, -52⟩ ∧
      calculateEntropyIn binary64 [0x63, 0x62, 0x61]
          (cacheAfterIn binary64 [(tokenAbc, [0x61, 0x62, 0x63])]) tokenAbc =
        (⟨0x187ce649987492, -52⟩, cacheAfterIn binary64 [(tokenAbc, [0x61, 0x62, 0x63])]) :=
  ⟨by decide,
    (calculateEntropy_cache_stable binary64 [(tokenAbc, [0x61, 0x62, 0x63])] tokenAbc
      [0x63, 0x62, 0x61]).1 _ (by decide)⟩

/-! ## The claim on the dispatch loop -/

/-- C5: for every input line, position `>= 0` and entropy threshold, the body of the dispatch
loop does not panic, and it emits a job if and only if the line parses as a URL, the path
split on `/` has at least `position + 1` elements, and the entropy score of the element at
index `position` does not exceed the threshold; the job is then that element paired with the
whole line.  When nothing is emitted, the frequency table and the representative-URL table
are unchanged. -/
theorem dispatch_emits_iff {F : Type} [LinearOrderedField F] (parse : GoString → Option URL)
    (log2 : F → F) (position : Int) (entropyLevel : F) (cache : GoMap GoString F)
    (tables : Tables) (line : GoString) (hpos : 0 ≤ position) :
    ∃ out cache2, dispatchLine parse log2 position entropyLevel cache line = some (out, cache2) ∧
      (∀ job, out = some job ↔
        ∃ u word, parse line = some u ∧
          position.toNat + 1 ≤ (stringsSplit u.Path 0x2F).length ∧
          (stringsSplit u.Path 0x2F)[position.toNat]? = some word ∧
          (calculateEntropy log2 cache word).1 ≤ entropyLevel ∧
          job = ⟨word, line⟩) ∧
      (out = none →
        processLine parse log2 position entropyLevel (cache, tables) line =
          some (cache2, tables)) := by
  unfold processLine dispatchLine
  cases hp : parse line with
  | none => exact ⟨none, cache, rfl, by simp, fun _ => rfl⟩
  | some u =>
    by_cases hlen : ((stringsSplit u.Path 0x2F).length : Int) > position
    · have hnn : ¬ position < 0 := by omega
      have hidx : position.toNat < (stringsSplit u.Path 0x2F).length := by omega
      have hget : (stringsSplit u.Path 0x2F)[position.toNat]? =
          some ((stringsSplit u.Path 0x2F)[position.toNat]) := List.getElem?_eq_getElem hidx
      by_cases hs : (calculateEntropy log2 cache
          ((stringsSplit u.Path 0x2F)[position.toNat])).1 ≤ entropyLevel
      · refine ⟨some ⟨(stringsSplit u.Path 0x2F)[position.toNat], line⟩,
          (calculateEntropy log2 cache ((stringsSplit u.Path 0x2F)[position.toNat])).2, ?_, ?_, ?_⟩
        · simp only [hlen, if_true, hnn, if_false, hget, hs]
        · intro job
          constructor
          · intro hj
            exact ⟨u, _, rfl, by omega, hget, hs, (Option.some.inj hj).symm⟩
          · rintro ⟨u2, word, hu, _, hw, _, hj⟩
            cases hu
            rw [hget] at hw
            cases hw
            rw [hj]
        · intro hn; cases hn
      · refine ⟨none,
          (calculateEntropy log2 cache ((stringsSplit u.Path 0x2F)[position.toNat])).2, ?_, ?_, ?_⟩
        · simp only [hlen, if_true, hnn, if_false, hget, hs]
        · intro job
          constructor
          · intro hj; cases hj
          · rintro ⟨u2, word, hu, _, hw, hsc, _⟩
            cases hu
            rw [hget] at hw
            cases hw
            exact absurd hsc hs
        · intro _
          simp only [hlen, if_true, hnn, if_false, hget, hs]
    · refine ⟨none, cache, ?_, ?_, ?_⟩
      · simp only [hlen, if_false]
      · intro job
        constructor
        · intro hj; cases hj
        · rintro ⟨u2, word, hu, hl, _, _, _⟩
          cases hu
          omega
      · intro _
        simp only [hlen, if_false]

/-- C5 on the line `http://a.com/x/q` with position 2 and threshold 4, from the empty cache:
the job `(q, http://a.com/x/q)` is emitted. -/
theorem dispatch_emits_iff_witness :
    (0 : Int) ≤ 2 ∧
      ∃ cache2, dispatchLine scenarioParse (Real.logb 2) 2 4 ∅ (ascii "http://a.com/x/q") =
        some (some ⟨ascii "q", ascii "http://a.com/x/q"⟩, cache2) := by
  refine ⟨by decide, ?_⟩
  have h := dispatch_emits_iff scenarioParse (Real.logb 2) 2 4 ∅ (∅, ∅)
    (ascii "http://a.com/x/q") (by decide)
  obtain ⟨out, cache2, hd, hiff, _⟩ := h
  have hr : runes (ascii "q") = [0x71] := by decide
  have hscore : (calculateEntropy (Real.logb 2) ∅ (ascii "q")).1 ≤ 4 := by
    rw [calculateEntropy_miss _ _ _ (Finmap.lookup_empty _), hr]
    simp [ascii]
  have hout : out = some ⟨ascii "q", ascii "http://a.com/x/q"⟩ :=
    (hiff _).2 ⟨⟨ascii "/x/q"⟩, ascii "q", by decide, by decide, by decide, hscore, rfl⟩
  exact ⟨cache2, by rw [hd, hout]⟩

/-! ## The claims on the entropy value -/

/-- C1 fails on the token `é` (bytes C3 A9, one code point U+00E9): the code divides the count
by `len(word) = 2` bytes and returns 1/2, where the Shannon entropy over code points is 0. -/
theorem calculateEntropy_two_byte_rune :
    runes [0xC3, 0xA9] = [0xE9] ∧
      (calculateEntropy (Real.logb 2) ∅ [0xC3, 0xA9]).1 = 1 / 2 ∧
      shannonEntropy (Real.logb 2) [0xC3, 0xA9] = 0 := by
  have hr : runes [0xC3, 0xA9] = [0xE9] := by decide
  refine ⟨hr, ?_, ?_⟩
  · rw [calculateEntropy_miss _ _ _ (Finmap.lookup_empty _), hr]
    simp
  · unfold shannonEntropy
    rw [hr]
    simp

/-- C6 fails on the token `€` (bytes E2 82 AC, one code point U+20AC): it is a single code
point, and the code returns `log2(3) / 3`, which is positive. -/
theorem calculateEntropy_single_rune_positive :
    SingleRepeatedRune [0xE2, 0x82, 0xAC] ∧
      (calculateEntropy (Real.logb 2) ∅ [0xE2, 0x82, 0xAC]).1 = Real.logb 2 3 / 3 ∧
      0 < (calculateEntropy (Real.logb 2) ∅ [0xE2, 0x82, 0xAC]).1 := by
  have hr : runes [0xE2, 0x82, 0xAC] = [0x20AC] := by decide
  have hv : (calculateEntropy (Real.logb 2) ∅ [0xE2, 0x82, 0xAC]).1 = Real.logb 2 3 / 3 := by
    rw [calculateEntropy_miss _ _ _ (Finmap.lookup_empty _), hr]
    simp
    ring
  refine ⟨⟨0x20AC, 1, by decide, hr⟩, hv, ?_⟩
  rw [hv]
  have h3 : 0 < Real.logb 2 3 := Real.logb_pos (by norm_num) (by norm_num)
  positivity

/-! ## The claims on the ranking step -/

/-- C2: for every frequency table, the tokens produced by the ranking step (collect the keys,
`sort.Slice` with the comparator) are ordered by count ascending, then token ascending: of two
adjacent results `a`, `b`, either `freq[a] < freq[b]`, or `freq[a] = freq[b]` and `a <= b` in
string order.  The result holds exactly the keys of the table and is the same for every order
in which the keys were collected from the map. -/
theorem ranking_sorted_order_independent (wordFrequency : GoMap GoString Int)
    (order order2 : List GoString) (h : RangeOrder wordFrequency order)
    (h2 : RangeOrder wordFrequency order2) :
    List.Chain'
        (fun a b => freqOf wordFrequency a < freqOf wordFrequency b ∨
          (freqOf wordFrequency a = freqOf wordFrequency b ∧ (a = b ∨ strLess a b = true)))
        (rankSorted wordFrequency order) ∧
      (∀ w, w ∈ rankSorted wordFrequency order ↔ w ∈ wordFrequency.keys) ∧
      rankSorted wordFrequency order2 = rankSorted wordFrequency order := by
  refine ⟨?_, ?_, ?_⟩
  · exact (rankSorted_sorted wordFrequency order).chain'
  · intro w
    rw [(rankSorted_perm wordFrequency order).mem_iff, rangeOrder_mem wordFrequency h]
  · exact rankSorted_congr wordFrequency (rangeOrder_perm wordFrequency h2 h)

/-- C2 at the tables of the scenario, with the keys collected in either order. -/
theorem ranking_sorted_order_independent_witness :
    RangeOrder scenarioTables.1 [ascii "abc123", ascii "q"] ∧
      RangeOrder scenarioTables.1 [ascii "q", ascii "abc123"] ∧
      rankSorted scenarioTables.1 [ascii "q", ascii "abc123"] =
        rankSorted scenarioTables.1 [ascii "abc123", ascii "q"] :=
  ⟨by decide, by decide,
    (ranking_sorted_order_independent scenarioTables.1 [ascii "abc123", ascii "q"]
      [ascii "q", ascii "abc123"] (by decide) (by decide)).2.2⟩

/-- C3, as the specification states it, fails: with the limit `-2` the ranking step panics
(the slice bound is negative), on the table of the scenario. -/
theorem rank_negative_limit_panics :
    RangeOrder scenarioTables.1 [ascii "abc123", ascii "q"] ∧
      rank scenarioTables.1 [ascii "abc123", ascii "q"] (-2) = none := by
  decide

/-- C3, amended: for every frequency table and the limit `-1`, the ranking step does not fail
and returns the whole sorted sequence, which holds every token of the table exactly once. -/
theorem rank_limit_neg_one (wordFrequency : GoMap GoString Int) (order : List GoString)
    (h : RangeOrder wordFrequency order) :
    rank wordFrequency order (-1) = some (rankSorted wordFrequency order) ∧
      (rankSorted wordFrequency order).Nodup ∧
      (∀ w, w ∈ rankSorted wordFrequency order ↔ w ∈ wordFrequency.keys) ∧
      (rankSorted wordFrequency order).length = wordFrequency.keys.card := by
  refine ⟨truncate_neg_one _, ?_, ?_, ?_⟩
  · exact (rankSorted_perm wordFrequency order).nodup_iff.2 h.1
  · intro w
    rw [(rankSorted_perm wordFrequency order).mem_iff, rangeOrder_mem wordFrequency h]
  · rw [(rankSorted_perm wordFrequency order).length_eq, rangeOrder_length wordFrequency h]

/-- C3 amended, at the tables of the scenario: the limit `-1` returns `[q, abc123]`. -/
theorem rank_limit_neg_one_witness :
    RangeOrder scenarioTables.1 [ascii "abc123", ascii "q"] ∧
      rank scenarioTables.1 [ascii "abc123", ascii "q"] (-1) =
        some (rankSorted scenarioTables.1 [ascii "abc123", ascii "q"]) ∧
      rankSorted scenarioTables.1 [ascii "abc123", ascii "q"] = [ascii "q", ascii "abc123"] :=
  ⟨by decide,
    (rank_limit_neg_one scenarioTables.1 [ascii "abc123", ascii "q"] (by decide)).1,
    by decide⟩

/-- C4: for every frequency table with `n` distinct tokens and every limit `>= 0`, the ranking
step returns exactly `min(limit, n)` tokens, they are the first `min(limit, n)` elements of the
fully sorted sequence, and every returned token has a frequency less than or equal to that of
every token of the table that is left out. -/
theorem rank_truncates (wordFrequency : GoMap GoString Int) (order : List GoString)
    (limit : Int) (h : RangeOrder wordFrequency order) (hlimit : 0 ≤ limit) :
    ∃ result, rank wordFrequency order limit = some result ∧
      (result.length : Int) = min limit (wordFrequency.keys.card : Int) ∧
      result = (rankSorted wordFrequency order).take result.length ∧
      ∀ a ∈ result, ∀ b ∈ wordFrequency.keys, b ∉ result →
        freqOf wordFrequency a ≤ freqOf wordFrequency b := by
  have hlen : (rankSorted wordFrequency order).length = wordFrequency.keys.card := by
    rw [(rankSorted_perm wordFrequency order).length_eq, rangeOrder_length wordFrequency h]
  have hk : ((rankSorted wordFrequency order).take limit.toNat).length
      = min limit.toNat wordFrequency.keys.card := by
    rw [List.length_take, hlen]
  refine ⟨(rankSorted wordFrequency order).take limit.toNat,
    truncate_of_nonneg _ _ hlimit, ?_, ?_, ?_⟩
  · rw [hk]; omega
  · rw [hk, List.take_eq_take]
    rw [hlen, min_assoc, min_self]
  · intro a ha b hb hnot
    have hbs : b ∈ rankSorted wordFrequency order := by
      rw [(rankSorted_perm wordFrequency order).mem_iff, rangeOrder_mem wordFrequency h]
      exact hb
    rw [← List.take_append_drop limit.toNat (rankSorted wordFrequency order),
      List.mem_append] at hbs
    have hbd : b ∈ (rankSorted wordFrequency order).drop limit.toNat := by
      rcases hbs with hbt | hbd
      · exact absurd hbt hnot
      · exact hbd
    have hs := rankSorted_sorted wordFrequency order
    rw [← List.take_append_drop limit.toNat (rankSorted wordFrequency order)] at hs
    have hab : RankLe wordFrequency a b := (List.pairwise_append.1 hs).2.2 a ha b hbd
    rcases hab with hlt | ⟨heq, _⟩
    · exact le_of_lt hlt
    · exact le_of_eq heq

/-- C4 at the tables of the scenario with limit 1: only the rarest token `q` is returned. -/
theorem rank_truncates_witness :
    RangeOrder scenarioTables.1 [ascii "abc123", ascii "q"] ∧ (0 : Int) ≤ 1 ∧
      rank scenarioTables.1 [ascii "abc123", ascii "q"] 1 = some [ascii "q"] ∧
      ∃ result, rank scenarioTables.1 [ascii "abc123", ascii "q"] 1 = some result ∧
        (result.length : Int) = min 1 (scenarioTables.1.keys.card : Int) ∧
        result = (rankSorted scenarioTables.1 [ascii "abc123", ascii "q"]).take result.length ∧
        ∀ a ∈ result, ∀ b ∈ scenarioTables.1.keys, b ∉ result →
          freqOf scenarioTables.1 a ≤ freqOf scenarioTables.1 b :=
  ⟨by decide, by decide, by decide,
    rank_truncates scenarioTables.1 [ascii "abc123", ascii "q"] 1 (by decide) (by decide)⟩

end Posrare
